import Mathlib

/-!
Verification development for the graph builder in `src/shinier/graph.py`.

The Python code walks a filesystem subtree, classifies each path
(plain filesystem entry / python module / python package), derives
dotted import paths by climbing ancestor package directories, and
builds a deduplicated breadth-first graph of nodes and
parent-to-child edges.

Shallow embedding conventions used here:
* an absolute filesystem path is its list of name components, outermost
  first; `[]` stands for the filesystem root directory `/`;
* the filesystem is a finite association list from paths to entries
  (regular file, directory with its listing, symbolic link, or an
  existing object that is neither file nor directory, e.g. a device node);
* `pathlib` operations that follow symbolic links (`exists`, `is_dir`,
  `is_file`, `iterdir`) are modelled by resolving the symlink chain first;
  a chain longer than the number of entries must revisit an entry and
  therefore loops, which `pathlib` reports as a non-existing path
  (`ELOOP` makes `Path.exists()` return `False`), so the chain is followed
  with fuel `entries.length + 1` and fuel exhaustion is mapped to the
  non-existing case;
* Python exceptions are modelled with `Except Err`;
* the two unbounded `while` loops of the source (the package climb in
  `node_from_module_path` and the breadth-first cursor loop in
  `graph_from_path`) are modelled with an explicit fuel parameter; the
  value `none` of the surrounding `Option` means the fuel ran out, i.e.
  the modelled loop did not finish within the given number of iterations.
-/

namespace Shinier

/-- Absolute filesystem path: name components, outermost first. -/
abbrev Path := List String

/-- Final component of a path; the filesystem root has name `""`
(mirrors `pathlib.PurePath.name`). -/
def pathName (p : Path) : String := (p.getLast?).getD ""

/-- Index of the last occurrence of a dot in a character list
(mirrors `str.rfind` specialised to the dot character). -/
def revFindDot : List Char → Option Nat
  | [] => none
  | c :: cs =>
    match revFindDot cs with
    | some i => some (i + 1)
    | none => if c = '.' then some 0 else none

/-- Extension of a file name (mirrors `pathlib.PurePath.suffix`:
the part of the name from its last dot on, provided that dot is neither
the first nor the last character; otherwise the empty string). -/
def nameSuffix (s : String) : String :=
  match revFindDot s.toList with
  | some i =>
    if 0 < i ∧ i < s.toList.length - 1 then String.mk (s.toList.drop i) else ""
  | none => ""

/-- Stem of a file name (mirrors `pathlib.PurePath.stem`: the name with
its `nameSuffix` removed). -/
def nameStem (s : String) : String :=
  match revFindDot s.toList with
  | some i =>
    if 0 < i ∧ i < s.toList.length - 1 then String.mk (s.toList.take i) else s
  | none => s

/-- Extension of the final component of a path. -/
def pathSuffix (p : Path) : String := nameSuffix (pathName p)

/-- Stem of the final component of a path. -/
def pathStem (p : Path) : String := nameStem (pathName p)

/-- One filesystem object: a regular file, a directory together with its
listing (child names in directory order), a symbolic link to an absolute
target path, or an existing object that is neither a regular file nor a
directory. -/
inductive FSEntry where
  | file : FSEntry
  | dir (children : List String) : FSEntry
  | symlink (target : Path) : FSEntry
  | other : FSEntry
deriving DecidableEq

/-- A finite filesystem snapshot: an association list from absolute paths
to entries (first match wins). -/
structure FS where
  entries : List (Path × FSEntry)

/-- Association-list lookup of a path in the filesystem. -/
def lookupEntry : List (Path × FSEntry) → Path → Option FSEntry
  | [], _ => none
  | (q, e) :: rest, p => if q = p then some e else lookupEntry rest p

/-- Fuel that is always sufficient to follow a non-looping symlink chain:
a longer chain revisits an entry and hence loops forever. -/
def resolveFuel (fs : FS) : Nat := fs.entries.length + 1

/-- Follow the chain of symbolic links starting at a path (mirrors the
canonicalisation performed by `Path.resolve` and implicitly by `exists`,
`is_dir` and `is_file`).  Returns `none` when the fuel runs out, which
with fuel `resolveFuel` happens exactly for looping chains; `pathlib`
reports those as non-existing (`ELOOP`). -/
def resolveChain (fs : FS) : Nat → Path → Option Path
  | 0, p =>
    match lookupEntry fs.entries p with
    | some (FSEntry.symlink _) => none
    | _ => some p
  | fuel + 1, p =>
    match lookupEntry fs.entries p with
    | some (FSEntry.symlink t) => resolveChain fs fuel t
    | _ => some p

/-- Entry a path finally refers to, following symbolic links
(mirrors `os.stat`): `none` for a missing path, a broken link, or a
symlink loop. -/
def statPath (fs : FS) (p : Path) : Option FSEntry :=
  match resolveChain fs (resolveFuel fs) p with
  | none => none
  | some q => lookupEntry fs.entries q

/-- Mirrors `Path.exists()` (follows symbolic links). -/
def path_exists (fs : FS) (p : Path) : Bool := (statPath fs p).isSome

/-- Mirrors `Path.is_dir()` (follows symbolic links). -/
def is_dir (fs : FS) (p : Path) : Bool :=
  match statPath fs p with
  | some (FSEntry.dir _) => true
  | _ => false

/-- Mirrors `is_path_python_module` from graph.py:
the path's suffix equals ".py". -/
def is_path_python_module (p : Path) : Bool := pathSuffix p == ".py"

/-- Mirrors `is_path_init_module` from graph.py:
the path's name equals "__init__.py". -/
def is_path_init_module (p : Path) : Bool := pathName p == "__init__.py"

/-- Mirrors `is_path_python_package` from graph.py: the path is a
directory and `path / "__init__.py"` exists. -/
def is_path_python_package (fs : FS) (p : Path) : Bool :=
  is_dir fs p && path_exists fs (p ++ ["__init__.py"])

/-- Mirrors `DotPathModel`. -/
structure DotPathModel where
  parts : List String
deriving DecidableEq

/-- Mirrors `NameModel`. -/
structure NameModel where
  short_name : String
  long_name : String
  aliases : List String
deriving DecidableEq

/-- Mirrors the closed union of `FilesystemLocationModel`,
`PythonModuleLocationModel` and `PythonObjectLocationModel`; the
`location_type` discriminator string becomes the constructor. -/
inductive LocationModel where
  | filesystem (file_path : Path)
  | python_module (file_path : Path) (root_dir : Path) (dot_path : DotPathModel)
  | python_object (file_path : Path) (root_dir : Path) (dot_path : DotPathModel)
      (ref_path : DotPathModel)
deriving DecidableEq

/-- The `node_type` discriminator of the three node model classes. -/
inductive NodeTag where
  | filesystem : NodeTag
  | python_module : NodeTag
  | python_object : NodeTag
deriving DecidableEq

/-- Mirrors the closed union of `FilesystemNodeModel`,
`PythonModuleNodeModel` and `PythonObjectNodeModel`: pydantic value
equality compares the model class and all fields, so a node is its class
tag together with its location and name. -/
structure NodeModel where
  node_type : NodeTag
  location : LocationModel
  name : NameModel
deriving DecidableEq

/-- The `file_path` field carried by every location variant. -/
def LocationModel.file_path : LocationModel → Path
  | LocationModel.filesystem p => p
  | LocationModel.python_module p _ _ => p
  | LocationModel.python_object p _ _ _ => p

deriving instance DecidableEq for Except

/-- Mirrors the three exception classes of graph.py. -/
inductive Err where
  | pathDoesNotExist (path : Path)
  | pathIsNotFileOrDirectory (path : Path)
  | pathIsNotPythonModule (path : Path)
deriving DecidableEq

/-- Mirrors `GraphModel` / `Graph`: the node list plus the edge mapping;
the python `dict[int, list[int]]` with its insertion order is an
association list whose keys are unique by construction. -/
structure Graph where
  nodes : List NodeModel
  edges : List (Nat × List Nat)
deriving DecidableEq

/-- Mirrors `Graph.add_node`: append the node unless a value-equal node
is already present; the boolean reports whether the node was added. -/
def Graph.add_node (g : Graph) (n : NodeModel) : Graph × Bool :=
  if n ∈ g.nodes then (g, false)
  else ({ g with nodes := g.nodes ++ [n] }, true)

/-- Update of the edge dictionary: append the child to the parent's list,
creating the parent's (initially empty) list first, as
`Graph.add_edge` does; a fresh key goes to the end, matching python
dict insertion order. -/
def updateEdges : List (Nat × List Nat) → Nat → Nat → List (Nat × List Nat)
  | [], p, c => [(p, [c])]
  | (k, v) :: rest, p, c =>
    if k = p then (k, v ++ [c]) :: rest else (k, v) :: updateEdges rest p c

/-- Mirrors `Graph.add_edge`. -/
def Graph.add_edge (g : Graph) (parent child : Nat) : Graph :=
  { g with edges := updateEdges g.edges parent child }

/-- The node built for a directory that is not a package
(`FilesystemNodeModel` with `short_name = long_name = path.name`). -/
def filesystemDirNode (p : Path) : NodeModel :=
  { node_type := NodeTag.filesystem
    location := LocationModel.filesystem p
    name := { short_name := pathName p, long_name := pathName p, aliases := [] } }

/-- The node built for a regular file that is not a python module
(`FilesystemNodeModel` with `short_name = path.stem`,
`long_name = path.name`). -/
def filesystemFileNode (p : Path) : NodeModel :=
  { node_type := NodeTag.filesystem
    location := LocationModel.filesystem p
    name := { short_name := pathStem p, long_name := pathName p, aliases := [] } }

/-- The package climb of `node_from_module_path`:
while the current import root is a python package, prepend its name to
the dotted-path parts and move to its parent.  The loop is modelled with
fuel; `none` means the fuel ran out.  With fuel `root.length + 1` that
happens exactly when the loop reaches the filesystem root `[]` and `[]`
is itself a package, in which case the python loop runs forever because
the parent of the root directory is the root directory itself. -/
def climb (fs : FS) : Nat → Path → List String → Option (Path × List String)
  | 0, root, parts =>
    if is_path_python_package fs root then none else some (root, parts)
  | fuel + 1, root, parts =>
    if is_path_python_package fs root then
      climb fs fuel root.dropLast (pathName root :: parts)
    else some (root, parts)

/-- Mirrors `node_from_module_path`.  Raises
`PathIsNotPythonModuleError` when the path's suffix is not ".py";
otherwise derives the import root, the dotted import path and the names,
climbing ancestor package directories.  The outer `Option` is `none`
exactly when the climb loop of the source diverges. -/
def node_from_module_path (fs : FS) (p : Path) : Option (Except Err NodeModel) :=
  if is_path_python_module p = false then
    some (Except.error (Err.pathIsNotPythonModule p))
  else
    let start_root : Path := p.dropLast
    let start_parts : List String :=
      if is_path_init_module p then [] else [pathStem p]
    let short_name : String :=
      if is_path_init_module p then pathName p.dropLast else pathStem p
    let long_name : String :=
      if is_path_init_module p then pathName p.dropLast else pathName p
    match climb fs (start_root.length + 1) start_root start_parts with
    | none => none
    | some (root, parts) =>
      some (Except.ok
        { node_type := NodeTag.python_module
          location := LocationModel.python_module p root
            { parts := parts }
          name := { short_name := short_name, long_name := long_name, aliases := [] } })

/-- Mirrors `node_from_path`.  Checks existence (following symbolic
links), resolves the symlink chain, then dispatches on the resolved
entry: a package directory or a ".py" file goes to
`node_from_module_path`, other directories and files become plain
filesystem nodes, anything else raises.  The lemma
`resolveChain_not_symlink` shows the symlink match arm below is dead
code, matching the source where the while loop has already removed the
final symlink. -/
def node_from_path (fs : FS) (p : Path) : Option (Except Err NodeModel) :=
  match resolveChain fs (resolveFuel fs) p with
  | none => some (Except.error (Err.pathDoesNotExist p))
  | some q =>
    match lookupEntry fs.entries q with
    | none => some (Except.error (Err.pathDoesNotExist p))
    | some (FSEntry.symlink _) => some (Except.error (Err.pathDoesNotExist p))
    | some FSEntry.other => some (Except.error (Err.pathIsNotFileOrDirectory q))
    | some (FSEntry.dir _) =>
      if is_path_python_package fs q then
        node_from_module_path fs (q ++ ["__init__.py"])
      else some (Except.ok (filesystemDirNode q))
    | some FSEntry.file =>
      if is_path_python_module q then node_from_module_path fs q
      else some (Except.ok (filesystemFileNode q))

/-- Mirrors `Path.iterdir()` on the entry the path refers to (following
symbolic links): one child path per name in the directory listing, in
listing order. -/
def dirEntries (fs : FS) (p : Path) : List Path :=
  match statPath fs p with
  | some (FSEntry.dir children) => children.map (fun name => p ++ [name])
  | _ => []

/-- Classify a list of child paths left to right, as the list
comprehensions of `child_nodes_from_node` do: the first exception wins,
and a diverging classification diverges. -/
def mapNodeFromPath (fs : FS) : List Path → Option (Except Err (List NodeModel))
  | [] => some (Except.ok [])
  | p :: ps =>
    match node_from_path fs p with
    | none => none
    | some (Except.error e) => some (Except.error e)
    | some (Except.ok n) =>
      match mapNodeFromPath fs ps with
      | none => none
      | some (Except.error e) => some (Except.error e)
      | some (Except.ok ns) => some (Except.ok (n :: ns))

/-- Mirrors `child_nodes_from_node`: a filesystem node that is a
directory expands to its classified entries; a python-module node that
is a package-init file expands to its classified siblings, the init file
itself excluded by path inequality; everything else has no children. -/
def child_nodes_from_node (fs : FS) (node : NodeModel) : Option (Except Err (List NodeModel)) :=
  match node.node_type with
  | NodeTag.filesystem =>
    if is_dir fs node.location.file_path then
      mapNodeFromPath fs (dirEntries fs node.location.file_path)
    else some (Except.ok [])
  | NodeTag.python_module =>
    if is_path_init_module node.location.file_path then
      mapNodeFromPath fs
        ((dirEntries fs node.location.file_path.dropLast).filter
          (fun child => decide (child ≠ node.location.file_path)))
    else some (Except.ok [])
  | NodeTag.python_object => some (Except.ok [])

/-- Inner loop of the breadth-first traversal of `graph_from_path`: for
each child in enumeration order, `add_node`; when the node was actually
added, record the edge from the cursor to the new last index. -/
def addChildren (g : Graph) (index : Nat) : List NodeModel → Graph
  | [] => g
  | c :: cs =>
    let step := g.add_node c
    let g2 := if step.2 then step.1.add_edge index (step.1.nodes.length - 1) else step.1
    addChildren g2 index cs

/-- The cursor loop of `graph_from_path`, with fuel: while the cursor is
below the node count, expand the cursor node and fold its children into
the graph.  `none` means the fuel ran out before the cursor caught up. -/
def buildLoop (fs : FS) : Nat → Graph → Nat → Option (Except Err Graph)
  | 0, g, index =>
    if index < g.nodes.length then none else some (Except.ok g)
  | fuel + 1, g, index =>
    if h : index < g.nodes.length then
      match child_nodes_from_node fs (g.nodes.get ⟨index, h⟩) with
      | none => none
      | some (Except.error e) => some (Except.error e)
      | some (Except.ok children) =>
        buildLoop fs fuel (addChildren g index children) (index + 1)
    else some (Except.ok g)

/-- Fuel for the cursor loop: one unit per node the graph can ever hold.
Deduplication keeps the node list duplicate-free and every node is
determined by one filesystem entry, so the node count never exceeds the
entry count and this fuel is sufficient (theorem for claim C1). -/
def buildFuel (fs : FS) : Nat := fs.entries.length + 1

/-- Mirrors `graph_from_path` with an explicit fuel for the cursor loop:
classify the root, seed the graph with it, run the loop. -/
def graphFromPathFuel (fs : FS) (fuel : Nat) (p : Path) : Option (Except Err Graph) :=
  match node_from_path fs p with
  | none => none
  | some (Except.error e) => some (Except.error e)
  | some (Except.ok n) => buildLoop fs fuel { nodes := [n], edges := [] } 0

/-- Mirrors `graph_from_path`, run with the always-sufficient fuel. -/
def graph_from_path (fs : FS) (p : Path) : Option (Except Err Graph) :=
  graphFromPathFuel fs (buildFuel fs) p

/-- All node indices recorded as some edge's child, in insertion order. -/
def edgeTargets (g : Graph) : List Nat := (g.edges.map Prod.snd).flatten

/-- The node a single existing, already-resolved filesystem entry
classifies to, when classification succeeds: the image of `entryNode`
over the entry list bounds the set of nodes any traversal can create. -/
def entryNode (fs : FS) (q : Path) (e : FSEntry) : Option NodeModel :=
  match e with
  | FSEntry.dir _ =>
    if is_path_python_package fs q then
      match node_from_module_path fs (q ++ ["__init__.py"]) with
      | some (Except.ok n) => some n
      | _ => none
    else some (filesystemDirNode q)
  | FSEntry.file =>
    if is_path_python_module q then
      match node_from_module_path fs q with
      | some (Except.ok n) => some n
      | _ => none
    else some (filesystemFileNode q)
  | _ => none

/-- Every node any classification can produce, one candidate per
filesystem entry. -/
def possibleNodes (fs : FS) : List NodeModel :=
  fs.entries.filterMap (fun qe => entryNode fs qe.1 qe.2)

/-- Divergence of the package-climb loop at a given import root: no
amount of fuel makes it finish.  This happens exactly when the climb
reaches the filesystem root and the filesystem root is a package. -/
def ClimbDiverges (fs : FS) (root : Path) : Prop :=
  ∀ fuel parts, climb fs fuel root parts = none

/-- Invariant of the edge dictionary during the cursor loop: every edge
goes from a strictly smaller parent index to a strictly larger child
index, and every recorded child index is a valid node index. -/
def EdgeBounds (g : Graph) : Prop :=
  ∀ e ∈ g.edges, ∀ c ∈ e.2, e.1 < c ∧ c < g.nodes.length

/-- Shape of the edge dictionary while the cursor sits at index i: every
key is a finished cursor below i, except possibly a single final entry
keyed i (the entry currently being extended).  Keeping the key i last is
what lets a fresh edge land at the end of the flattened target list. -/
def KeyShape (g : Graph) (i : Nat) : Prop :=
  (∀ e ∈ g.edges, e.1 < i) ∨
    (∃ es v, g.edges = es ++ [(i, v)] ∧ ∀ e ∈ es, e.1 < i)

/-- Example filesystem of the repository's symlink-cycle test: the root
holds `dir_0` and a symlink `dir_1` to it, and `dir_0` holds a symlink
back to `dir_1`. -/
def cycFS : FS := FS.mk [
  ([], FSEntry.dir ["dir_0", "dir_1"]),
  (["dir_0"], FSEntry.dir ["dir_0_symlink"]),
  (["dir_1"], FSEntry.symlink ["dir_0"]),
  (["dir_0", "dir_0_symlink"], FSEntry.symlink ["dir_1"])]

/-- Example filesystem of the nested-package tests: `dir_0` (package)
holding `dir_1` (package) holding `file_0.py`. -/
def tmpFS : FS := FS.mk [
  ([], FSEntry.dir ["dir_0"]),
  (["dir_0"], FSEntry.dir ["__init__.py", "dir_1"]),
  (["dir_0", "__init__.py"], FSEntry.file),
  (["dir_0", "dir_1"], FSEntry.dir ["__init__.py", "file_0.py"]),
  (["dir_0", "dir_1", "__init__.py"], FSEntry.file),
  (["dir_0", "dir_1", "file_0.py"], FSEntry.file)]

/-- Example filesystem whose root directory is itself a python package:
the file `/__init__.py` exists.  On it the package climb of the source
never terminates, because the parent of the root directory is the root
directory itself. -/
def rootPkgFS : FS := FS.mk [
  ([], FSEntry.dir ["__init__.py"]),
  (["__init__.py"], FSEntry.file)]

/-- Example filesystem of the end-to-end scenario behind claim C8: a
(non-package) root directory containing exactly one empty subdirectory
`dir_0`. -/
def c8FS : FS := FS.mk [
  ([], FSEntry.dir ["dir_0"]),
  (["dir_0"], FSEntry.dir [])]

/-- The graph the build actually produces over c8FS when rooted at the
parent directory: the root node, the subdirectory node, one edge. -/
def c8Graph : Graph :=
  Graph.mk [filesystemDirNode [], filesystemDirNode ["dir_0"]] [(0, [1])]

theorem lookupEntry_mem {l : List (Path × FSEntry)} {p : Path} {e : FSEntry}
    (h : lookupEntry l p = some e) : (p, e) ∈ l := by
  induction l with
  | nil => simp [lookupEntry] at h
  | cons hd tl ih =>
    obtain ⟨q, e2⟩ := hd
    by_cases hq : q = p
    · subst hq
      have he : e2 = e := by simpa [lookupEntry] using h
      subst he
      exact List.mem_cons_self _ _
    · simp only [lookupEntry, if_neg hq] at h
      exact List.mem_cons_of_mem _ (ih h)

theorem resolveChain_not_symlink {fs : FS} :
    ∀ {fuel : Nat} {p q t : Path},
      resolveChain fs fuel p = some q →
      lookupEntry fs.entries q ≠ some (FSEntry.symlink t) := by
  intro fuel
  induction fuel with
  | zero =>
    intro p q t h
    cases hl : lookupEntry fs.entries p with
    | none => simp [resolveChain, hl] at h; subst h; simp [hl]
    | some e =>
      cases e <;> simp [resolveChain, hl] at h <;> subst h <;> simp [hl]
  | succ n ih =>
    intro p q t h
    cases hl : lookupEntry fs.entries p with
    | none => simp [resolveChain, hl] at h; subst h; simp [hl]
    | some e =>
      cases e with
      | symlink t2 =>
        simp only [resolveChain, hl] at h
        exact ih h
      | file => simp [resolveChain, hl] at h; subst h; simp [hl]
      | dir children => simp [resolveChain, hl] at h; subst h; simp [hl]
      | other => simp [resolveChain, hl] at h; subst h; simp [hl]

theorem resolveChain_fixed {fs : FS} {q : Path}
    (h : ∀ t, lookupEntry fs.entries q ≠ some (FSEntry.symlink t)) :
    ∀ fuel, resolveChain fs fuel q = some q := by
  intro fuel
  cases fuel with
  | zero =>
    cases hl : lookupEntry fs.entries q with
    | none => simp [resolveChain, hl]
    | some e => cases e <;> simp [resolveChain, hl] <;> exact absurd hl (h _)
  | succ n =>
    cases hl : lookupEntry fs.entries q with
    | none => simp [resolveChain, hl]
    | some e => cases e <;> simp [resolveChain, hl] <;> exact absurd hl (h _)

/-- C4: classifying any path that is a symbolic link (possibly the head
of a chain of symlinks, possibly one that is part of a structural cycle)
whose chain resolves to an existing location produces exactly the value
`node_from_path` produces on the canonical target itself; no
symlink-specific node kind exists in the data model. -/
theorem c4_symlink_equals_target (fs : FS) (p t q : Path) (e : FSEntry)
    (hsym : lookupEntry fs.entries p = some (FSEntry.symlink t))
    (hres : resolveChain fs (resolveFuel fs) p = some q)
    (hq : lookupEntry fs.entries q = some e) :
    node_from_path fs p = node_from_path fs q := by
  have hns : ∀ t2, lookupEntry fs.entries q ≠ some (FSEntry.symlink t2) :=
    fun t2 => resolveChain_not_symlink hres
  have hq2 : resolveChain fs (resolveFuel fs) q = some q := resolveChain_fixed hns _
  unfold node_from_path
  rw [hres, hq2]
  dsimp only
  rw [hq]
  cases e with
  | symlink t2 => exact absurd hq (hns t2)
  | file => rfl
  | dir children => rfl
  | other => rfl

theorem c4_witness :
    lookupEntry cycFS.entries ["dir_1"] = some (FSEntry.symlink ["dir_0"]) ∧
      node_from_path cycFS ["dir_1"] = node_from_path cycFS ["dir_0"] :=
  ⟨by decide,
    c4_symlink_equals_target cycFS ["dir_1"] ["dir_0"] ["dir_0"]
      (FSEntry.dir ["dir_0_symlink"]) (by decide) (by decide) (by decide)⟩

theorem pathName_concat (l : Path) (s : String) : pathName (l ++ [s]) = s := by
  simp [pathName, List.getLast?_concat]

theorem pathSuffix_concat (l : Path) (s : String) :
    pathSuffix (l ++ [s]) = nameSuffix s := by
  simp [pathSuffix, pathName_concat]

theorem pathStem_concat (l : Path) (s : String) :
    pathStem (l ++ [s]) = nameStem s := by
  simp [pathStem, pathName_concat]

theorem climb_stop {fs : FS} {root : Path} {parts : List String}
    (h : is_path_python_package fs root = false) (fuel : Nat) :
    climb fs fuel root parts = some (root, parts) := by
  cases fuel <;> simp [climb, h]

theorem climb_step {fs : FS} {root : Path} {parts : List String}
    (h : is_path_python_package fs root = true) (fuel : Nat) :
    climb fs (fuel + 1) root parts =
      climb fs fuel root.dropLast (pathName root :: parts) := by
  simp [climb, h]

/-- C3: for a module file `f` (a ".py" file that is not a package-init
file) living at `r/d0/d1/f` where `d0` and `d1` are package directories
and `r` is not, `node_from_module_path` yields a python-module node whose
dotted path is `[d0, d1, stem f]` and whose import root is `r`, the
outermost non-package ancestor: the climb prepends each package
ancestor's name and stops at the first non-package ancestor. -/
theorem c3_nested_module (fs : FS) (r : Path) (d0 d1 f : String)
    (hsfx : nameSuffix f = ".py") (hini : f ≠ "__init__.py")
    (hp1 : is_path_python_package fs (r ++ [d0]) = true)
    (hp2 : is_path_python_package fs (r ++ [d0, d1]) = true)
    (hr : is_path_python_package fs r = false) :
    node_from_module_path fs (r ++ [d0, d1, f]) =
      some (Except.ok
        { node_type := NodeTag.python_module
          location := LocationModel.python_module (r ++ [d0, d1, f]) r
            { parts := [d0, d1, nameStem f] }
          name := { short_name := nameStem f, long_name := f, aliases := [] } }) := by
  have e1 : r ++ [d0, d1, f] = (r ++ [d0, d1]) ++ [f] := by simp
  have e2 : r ++ [d0, d1] = (r ++ [d0]) ++ [d1] := by simp
  have hmod : is_path_python_module (r ++ [d0, d1, f]) = true := by
    rw [e1, is_path_python_module, pathSuffix_concat, hsfx]; rfl
  have hinit : is_path_init_module (r ++ [d0, d1, f]) = false := by
    rw [e1, is_path_init_module, pathName_concat]
    exact beq_eq_false_iff_ne.mpr hini
  have hdrop : (r ++ [d0, d1, f]).dropLast = r ++ [d0, d1] := by
    rw [e1]; exact List.dropLast_concat
  have hstem : pathStem (r ++ [d0, d1, f]) = nameStem f := by
    rw [e1, pathStem_concat]
  have hname : pathName (r ++ [d0, d1, f]) = f := by
    rw [e1, pathName_concat]
  have hclimb : climb fs ((r ++ [d0, d1]).length + 1) (r ++ [d0, d1]) [nameStem f] =
      some (r, [d0, d1, nameStem f]) := by
    rw [climb_step hp2]
    have hd2 : (r ++ [d0, d1]).dropLast = r ++ [d0] := by
      rw [e2]; exact List.dropLast_concat
    have hn2 : pathName (r ++ [d0, d1]) = d1 := by rw [e2, pathName_concat]
    rw [hd2, hn2]
    have hl2 : (r ++ [d0, d1]).length = (r ++ [d0]).length + 1 := by simp
    rw [hl2, climb_step hp1]
    rw [show (r ++ [d0]).dropLast = r from List.dropLast_concat, pathName_concat]
    exact climb_stop hr _
  simp only [node_from_module_path, hmod, hinit, hdrop, hstem, hname,
    Bool.true_eq_false, if_false, Bool.false_eq_true, ite_false, hclimb]

theorem c3_witness :
    nameSuffix "file_0.py" = ".py" ∧
      is_path_python_package tmpFS ["dir_0"] = true ∧
      is_path_python_package tmpFS ["dir_0", "dir_1"] = true ∧
      is_path_python_package tmpFS [] = false ∧
      node_from_module_path tmpFS ["dir_0", "dir_1", "file_0.py"] =
        some (Except.ok
          { node_type := NodeTag.python_module
            location := LocationModel.python_module ["dir_0", "dir_1", "file_0.py"] []
              { parts := ["dir_0", "dir_1", nameStem "file_0.py"] }
            name := { short_name := nameStem "file_0.py", long_name := "file_0.py",
                      aliases := [] } }) :=
  ⟨by decide, by decide, by decide, by decide,
    c3_nested_module tmpFS [] "dir_0" "dir_1" "file_0.py"
      (by decide) (by decide) (by decide) (by decide) (by decide)⟩

/-- C7: for a package-init file at `r/d0/__init__.py` where `d0` is a
package directory and the grandparent `r` is not a package, the derived
module node has dotted path exactly `[d0]` and both its short and long
name equal the parent directory's name `d0`. -/
theorem c7_package_init (fs : FS) (r : Path) (d0 : String)
    (hp : is_path_python_package fs (r ++ [d0]) = true)
    (hr : is_path_python_package fs r = false) :
    node_from_module_path fs (r ++ [d0, "__init__.py"]) =
      some (Except.ok
        { node_type := NodeTag.python_module
          location := LocationModel.python_module (r ++ [d0, "__init__.py"]) r
            { parts := [d0] }
          name := { short_name := d0, long_name := d0, aliases := [] } }) := by
  have e1 : r ++ [d0, "__init__.py"] = (r ++ [d0]) ++ ["__init__.py"] := by simp
  have hmod : is_path_python_module (r ++ [d0, "__init__.py"]) = true := by
    rw [e1, is_path_python_module, pathSuffix_concat]; rfl
  have hinit : is_path_init_module (r ++ [d0, "__init__.py"]) = true := by
    rw [e1, is_path_init_module, pathName_concat]; rfl
  have hdrop : (r ++ [d0, "__init__.py"]).dropLast = r ++ [d0] := by
    rw [e1]; exact List.dropLast_concat
  have hclimb : climb fs ((r ++ [d0]).length + 1) (r ++ [d0]) [] =
      some (r, [d0]) := by
    rw [climb_step hp]
    rw [show (r ++ [d0]).dropLast = r from List.dropLast_concat, pathName_concat]
    exact climb_stop hr _
  simp only [node_from_module_path, hmod, hinit, hdrop,
    Bool.true_eq_false, if_false, Bool.false_eq_true, ite_false, ite_true, hclimb,
    pathName_concat]

theorem c7_witness :
    is_path_python_package tmpFS ["dir_0"] = true ∧
      is_path_python_package tmpFS [] = false ∧
      node_from_module_path tmpFS ["dir_0", "__init__.py"] =
        some (Except.ok
          { node_type := NodeTag.python_module
            location := LocationModel.python_module ["dir_0", "__init__.py"] []
              { parts := ["dir_0"] }
            name := { short_name := "dir_0", long_name := "dir_0", aliases := [] } }) :=
  ⟨by decide, by decide,
    c7_package_init tmpFS [] "dir_0" (by decide) (by decide)⟩

/-- C5: every classification failure is terminal for the build: a root
classification failure propagates through graph_from_path unchanged, and
a child-enumeration failure at the cursor node propagates through the
cursor loop unchanged; in both cases the result is the bare error and
no (partial) graph, matching the all-or-nothing contract. -/
theorem c5_all_or_nothing :
    (∀ (fs : FS) (p : Path) (e : Err),
      node_from_path fs p = some (Except.error e) →
      graph_from_path fs p = some (Except.error e)) ∧
    (∀ (fs : FS) (fuel : Nat) (g : Graph) (index : Nat) (e : Err)
        (h : index < g.nodes.length),
      child_nodes_from_node fs (g.nodes.get ⟨index, h⟩) = some (Except.error e) →
      buildLoop fs (fuel + 1) g index = some (Except.error e)) := by
  constructor
  · intro fs p e h
    simp [graph_from_path, graphFromPathFuel, h]
  · intro fs fuel g index e h hc
    rw [buildLoop, dif_pos h, hc]

theorem c5_witness :
    node_from_path (FS.mk []) ["file_0"] =
        some (Except.error (Err.pathDoesNotExist ["file_0"])) ∧
      graph_from_path (FS.mk []) ["file_0"] =
        some (Except.error (Err.pathDoesNotExist ["file_0"])) :=
  ⟨by decide, c5_all_or_nothing.1 (FS.mk []) ["file_0"] _ (by decide)⟩

theorem node_from_module_path_no_error {fs : FS} {p : Path}
    (h : is_path_python_module p = true) :
    ∀ e : Err, node_from_module_path fs p ≠ some (Except.error e) := by
  intro e
  simp only [node_from_module_path, h, Bool.true_eq_false, if_false]
  split <;> simp

theorem isModule_init_concat (l : Path) :
    is_path_python_module (l ++ ["__init__.py"]) = true := by
  rw [is_path_python_module, pathSuffix_concat]; rfl

theorem node_from_path_no_module_error (fs : FS) (p q : Path) :
    node_from_path fs p ≠ some (Except.error (Err.pathIsNotPythonModule q)) := by
  unfold node_from_path
  cases hres : resolveChain fs (resolveFuel fs) p with
  | none => simp
  | some r =>
    dsimp only
    cases hl : lookupEntry fs.entries r with
    | none => simp
    | some e =>
      cases e with
      | file =>
        cases hm : is_path_python_module r with
        | true => simpa using node_from_module_path_no_error hm (Err.pathIsNotPythonModule q)
        | false => simp
      | dir children =>
        cases hp : is_path_python_package fs r with
        | true =>
          simpa using
            node_from_module_path_no_error (isModule_init_concat r)
              (Err.pathIsNotPythonModule q)
        | false => simp
      | symlink t => simp
      | other => simp

theorem mapNodeFromPath_no_module_error {fs : FS} :
    ∀ (ps : List Path) (q : Path),
      mapNodeFromPath fs ps ≠ some (Except.error (Err.pathIsNotPythonModule q)) := by
  intro ps
  induction ps with
  | nil => intro q; simp [mapNodeFromPath]
  | cons p ps ih =>
    intro q
    rw [mapNodeFromPath]
    cases hn : node_from_path fs p with
    | none => simp
    | some r =>
      cases r with
      | error e =>
        dsimp only
        simp only [ne_eq, Option.some.injEq, Except.error.injEq]
        intro he
        exact node_from_path_no_module_error fs p q (by rw [hn, he])
      | ok n =>
        dsimp only
        cases hm : mapNodeFromPath fs ps with
        | none => simp
        | some r2 =>
          cases r2 with
          | error e =>
            dsimp only
            simp only [ne_eq, Option.some.injEq, Except.error.injEq]
            intro he
            exact ih q (by rw [hm, he])
          | ok ns => simp

theorem child_nodes_no_module_error (fs : FS) (node : NodeModel) (q : Path) :
    child_nodes_from_node fs node ≠
      some (Except.error (Err.pathIsNotPythonModule q)) := by
  unfold child_nodes_from_node
  cases ht : node.node_type with
  | filesystem =>
    dsimp only
    split
    · exact mapNodeFromPath_no_module_error _ q
    · simp
  | python_module =>
    dsimp only
    split
    · exact mapNodeFromPath_no_module_error _ q
    · simp
  | python_object => simp

theorem buildLoop_no_module_error {fs : FS} :
    ∀ (fuel : Nat) (g : Graph) (index : Nat) (q : Path),
      buildLoop fs fuel g index ≠
        some (Except.error (Err.pathIsNotPythonModule q)) := by
  intro fuel
  induction fuel with
  | zero =>
    intro g index q
    rw [buildLoop]
    split <;> simp
  | succ n ih =>
    intro g index q
    rw [buildLoop]
    split
    · rename_i h
      cases hc : child_nodes_from_node fs (g.nodes.get ⟨index, h⟩) with
      | none => simp
      | some r =>
        cases r with
        | error e =>
          dsimp only
          simp only [ne_eq, Option.some.injEq, Except.error.injEq]
          intro he
          exact child_nodes_no_module_error fs _ q (by rw [hc, he])
        | ok children => exact ih _ _ q
    · simp

/-- C6: the defensive NotAModule failure is unreachable through the
public entry point: graph_from_path never returns
PathIsNotPythonModuleError, because both call sites of
node_from_module_path (the package-directory branch and the ".py"-file
branch of node_from_path) pass a path whose classification already
marked it as a module file. -/
theorem c6_not_a_module_unreachable (fs : FS) (p q : Path) :
    graph_from_path fs p ≠ some (Except.error (Err.pathIsNotPythonModule q)) := by
  rw [graph_from_path, graphFromPathFuel]
  cases hn : node_from_path fs p with
  | none => simp
  | some r =>
    cases r with
    | error e =>
      dsimp only
      simp only [ne_eq, Option.some.injEq, Except.error.injEq]
      intro he
      exact node_from_path_no_module_error fs p q (by rw [hn, he])
    | ok n => exact buildLoop_no_module_error _ _ _ q

theorem dropLast_append_pathName {p : Path} (h : p ≠ []) :
    p.dropLast ++ [pathName p] = p := by
  have hn : pathName p = p.getLast h := by
    simp [pathName, List.getLast?_eq_getLast p h]
  rw [hn]
  exact List.dropLast_concat_getLast h

theorem nameStem_append_nameSuffix (s : String) :
    nameStem s ++ nameSuffix s = s := by
  unfold nameStem nameSuffix
  cases h : revFindDot s.toList with
  | none => exact String.append_empty s
  | some i =>
    by_cases hc : 0 < i ∧ i < s.toList.length - 1
    · simp only [hc, if_true, ite_true]
      apply String.ext
      simp only [String.data_append]
      show s.toList.take i ++ s.toList.drop i = s.data
      rw [List.take_append_drop]
      rfl
    · simp only [hc, if_false, ite_false]
      exact String.append_empty s

theorem isModule_ne_nil {p : Path} (h : is_path_python_module p = true) :
    p ≠ [] := by
  intro hp
  subst hp
  exact absurd h (by decide)

theorem climb_nil_package {fs : FS} (h : is_path_python_package fs [] = true) :
    ∀ fuel parts, climb fs fuel [] parts = none := by
  intro fuel
  induction fuel with
  | zero => intro parts; simp [climb, h]
  | succ n ih =>
    intro parts
    rw [climb_step h]
    exact ih _

theorem climb_parts_shape {fs : FS} :
    ∀ (fuel : Nat) (root : Path) (parts : List String) (r2 : Path) (ps2 : List String),
      climb fs fuel root parts = some (r2, ps2) →
      ∃ pre, ps2 = pre ++ parts ∧
        (is_path_python_package fs root = true → pre ≠ []) := by
  intro fuel
  induction fuel with
  | zero =>
    intro root parts r2 ps2 h
    cases hp : is_path_python_package fs root with
    | true => simp [climb, hp] at h
    | false =>
      simp only [climb, hp, Bool.false_eq_true, ite_false, Option.some.injEq,
        Prod.mk.injEq] at h
      exact ⟨[], by simp [h.2], fun hc => by simp [hp] at hc⟩
  | succ n ih =>
    intro root parts r2 ps2 h
    cases hp : is_path_python_package fs root with
    | false =>
      rw [climb_stop hp] at h
      simp only [Option.some.injEq, Prod.mk.injEq] at h
      exact ⟨[], by simp [h.2], fun hc => by simp [hp] at hc⟩
    | true =>
      rw [climb_step hp] at h
      obtain ⟨pre, hpre, -⟩ := ih _ _ _ _ h
      refine ⟨pre ++ [pathName root], ?_, fun _ => by simp⟩
      rw [hpre]
      simp

theorem climb_join {fs : FS} :
    ∀ (fuel : Nat) (root : Path) (parts : List String) (r2 : Path) (ps2 : List String),
      climb fs fuel root parts = some (r2, ps2) →
      r2 ++ ps2 = root ++ parts := by
  intro fuel
  induction fuel with
  | zero =>
    intro root parts r2 ps2 h
    cases hp : is_path_python_package fs root with
    | true => simp [climb, hp] at h
    | false =>
      simp only [climb, hp, Bool.false_eq_true, ite_false, Option.some.injEq,
        Prod.mk.injEq] at h
      rw [← h.1, ← h.2]
  | succ n ih =>
    intro root parts r2 ps2 h
    cases hp : is_path_python_package fs root with
    | false =>
      rw [climb_stop hp] at h
      simp only [Option.some.injEq, Prod.mk.injEq] at h
      rw [← h.1, ← h.2]
    | true =>
      rw [climb_step hp] at h
      by_cases hroot : root = []
      · subst hroot
        simp only [List.dropLast_nil] at h
        rw [climb_nil_package hp] at h
        cases h
      · have hj := ih _ _ _ _ h
        rw [hj, show pathName root :: parts = [pathName root] ++ parts from rfl,
          ← List.append_assoc, dropLast_append_pathName hroot]

/-- C10 (amended): for every python-module node produced by
node_from_module_path, joining import_root with the import_path segments
reconstructs file_path: for a non-init module the module suffix is
appended to the last segment, for a package-init module "__init__.py" is
appended after all segments.  The segment list is non-empty for every
non-init module, and for a package-init module it is non-empty provided
the file's parent directory is a package (which is always the case when
the init file actually exists on disk, since the parent then contains
it); it is empty for a package-init path whose parent is not a
package. -/
theorem c10_import_path_reconstructs (fs : FS) (p : Path) (node : NodeModel)
    (h : node_from_module_path fs p = some (Except.ok node)) :
    ∃ root parts,
      node.location = LocationModel.python_module p root (DotPathModel.mk parts) ∧
      (is_path_init_module p = false →
        ∃ pre, parts = pre ++ [pathStem p] ∧
          root ++ pre ++ [pathStem p ++ pathSuffix p] = p ∧ parts ≠ []) ∧
      (is_path_init_module p = true →
        root ++ parts ++ ["__init__.py"] = p ∧
          (is_path_python_package fs p.dropLast = true → parts ≠ [])) := by
  have hmod : is_path_python_module p = true := by
    cases hb : is_path_python_module p with
    | true => rfl
    | false => simp [node_from_module_path, hb] at h
  have hne : p ≠ [] := isModule_ne_nil hmod
  cases hinit : is_path_init_module p with
  | false =>
    simp only [node_from_module_path, hmod, hinit, Bool.true_eq_false, if_false,
      Bool.false_eq_true, ite_false] at h
    cases hc : climb fs (p.dropLast.length + 1) p.dropLast [pathStem p] with
    | none => rw [hc] at h; cases h
    | some rp =>
      obtain ⟨root, parts⟩ := rp
      rw [hc] at h
      simp only [Option.some.injEq, Except.ok.injEq] at h
      subst h
      refine ⟨root, parts, rfl, ?_, ?_⟩
      · intro _
        obtain ⟨pre, hpre, -⟩ := climb_parts_shape _ _ _ _ _ hc
        have hj := climb_join _ _ _ _ _ hc
        refine ⟨pre, hpre, ?_, by simp [hpre]⟩
        rw [hpre, show pre ++ [pathStem p] = pre ++ [pathStem p] from rfl] at hj
        have hrp : root ++ pre = p.dropLast := by
          have h2 : (root ++ (pre ++ [pathStem p])).dropLast =
              (p.dropLast ++ [pathStem p]).dropLast := by rw [hj]
          rw [← List.append_assoc, List.dropLast_concat, List.dropLast_concat] at h2
          exact h2
        have hsfx : pathStem p ++ pathSuffix p = pathName p :=
          nameStem_append_nameSuffix (pathName p)
        rw [hsfx, hrp, dropLast_append_pathName hne]
      · intro htrue
        exact Bool.noConfusion htrue
  | true =>
    simp only [node_from_module_path, hmod, hinit, Bool.true_eq_false, if_false,
      ite_true] at h
    cases hc : climb fs (p.dropLast.length + 1) p.dropLast [] with
    | none => rw [hc] at h; cases h
    | some rp =>
      obtain ⟨root, parts⟩ := rp
      rw [hc] at h
      simp only [Option.some.injEq, Except.ok.injEq] at h
      subst h
      refine ⟨root, parts, rfl, ?_, ?_⟩
      · intro hfalse
        exact Bool.noConfusion hfalse
      · intro _
        have hj := climb_join _ _ _ _ _ hc
        rw [List.append_nil] at hj
        have hname : pathName p = "__init__.py" := by
          have := hinit
          rw [is_path_init_module] at this
          exact eq_of_beq this
        constructor
        · rw [hj, ← hname, dropLast_append_pathName hne]
        · intro hpkg
          obtain ⟨pre, hpre, hnonempty⟩ := climb_parts_shape _ _ _ _ _ hc
          rw [List.append_nil] at hpre
          rw [hpre]
          exact hnonempty hpkg

/-- C10 counterexample: node_from_module_path called on the bare path
"__init__.py" over the empty filesystem (so the file's parent directory
is not a package) produces a python-module node whose import_path
segment list is empty, refuting the claimed unconditional non-emptiness
of the segment list. -/
theorem c10_counterexample :
    node_from_module_path (FS.mk []) ["__init__.py"] =
      some (Except.ok
        { node_type := NodeTag.python_module
          location := LocationModel.python_module ["__init__.py"] []
            (DotPathModel.mk [])
          name := { short_name := "", long_name := "", aliases := [] } }) := by
  decide

theorem c10_witness :
    node_from_module_path tmpFS ["dir_0", "dir_1", "file_0.py"] =
        some (Except.ok
          { node_type := NodeTag.python_module
            location := LocationModel.python_module ["dir_0", "dir_1", "file_0.py"] []
              (DotPathModel.mk ["dir_0", "dir_1", "file_0"])
            name := { short_name := "file_0", long_name := "file_0.py",
                      aliases := [] } }) ∧
      ∃ root parts,
        (NodeModel.mk NodeTag.python_module
          (LocationModel.python_module ["dir_0", "dir_1", "file_0.py"] []
            (DotPathModel.mk ["dir_0", "dir_1", "file_0"]))
          (NameModel.mk "file_0" "file_0.py" [])).location =
          LocationModel.python_module ["dir_0", "dir_1", "file_0.py"] root
            (DotPathModel.mk parts) ∧
        (is_path_init_module ["dir_0", "dir_1", "file_0.py"] = false →
          ∃ pre, parts = pre ++ [pathStem ["dir_0", "dir_1", "file_0.py"]] ∧
            root ++ pre ++ [pathStem ["dir_0", "dir_1", "file_0.py"] ++
                pathSuffix ["dir_0", "dir_1", "file_0.py"]] =
              ["dir_0", "dir_1", "file_0.py"] ∧ parts ≠ []) ∧
        (is_path_init_module ["dir_0", "dir_1", "file_0.py"] = true →
          root ++ parts ++ ["__init__.py"] = ["dir_0", "dir_1", "file_0.py"] ∧
            (is_path_python_package tmpFS
                (["dir_0", "dir_1", "file_0.py"] : Path).dropLast = true →
              parts ≠ [])) :=
  ⟨by decide,
    c10_import_path_reconstructs tmpFS ["dir_0", "dir_1", "file_0.py"]
      (NodeModel.mk NodeTag.python_module
        (LocationModel.python_module ["dir_0", "dir_1", "file_0.py"] []
          (DotPathModel.mk ["dir_0", "dir_1", "file_0"]))
        (NameModel.mk "file_0" "file_0.py" []))
      (by decide)⟩

theorem climb_ne_none {fs : FS} (hroot : is_path_python_package fs [] = false) :
    ∀ (fuel : Nat) (root : Path) (parts : List String),
      root.length < fuel → climb fs fuel root parts ≠ none := by
  intro fuel
  induction fuel with
  | zero => intro root parts hlen; exact absurd hlen (Nat.not_lt_zero _)
  | succ n ih =>
    intro root parts hlen
    cases hp : is_path_python_package fs root with
    | false => rw [climb_stop hp]; simp
    | true =>
      rw [climb_step hp]
      have hne : root ≠ [] := by
        intro hr
        subst hr
        rw [hroot] at hp
        exact Bool.noConfusion hp
      apply ih
      have hpos : 0 < root.length := List.length_pos.mpr hne
      rw [List.length_dropLast]
      omega

theorem node_from_module_path_ne_none {fs : FS}
    (hroot : is_path_python_package fs [] = false) (p : Path) :
    node_from_module_path fs p ≠ none := by
  cases hm : is_path_python_module p with
  | false => simp [node_from_module_path, hm]
  | true =>
    simp only [node_from_module_path, hm, Bool.true_eq_false, if_false]
    split
    · rename_i heq
      exact absurd heq (climb_ne_none hroot _ _ _ (Nat.lt_succ_self _))
    · simp

theorem node_from_path_ne_none {fs : FS}
    (hroot : is_path_python_package fs [] = false) (p : Path) :
    node_from_path fs p ≠ none := by
  unfold node_from_path
  cases hres : resolveChain fs (resolveFuel fs) p with
  | none => simp
  | some q =>
    dsimp only
    cases hl : lookupEntry fs.entries q with
    | none => simp
    | some e =>
      cases e with
      | file =>
        cases hm : is_path_python_module q with
        | true => simpa using node_from_module_path_ne_none hroot q
        | false => simp
      | dir children =>
        cases hp : is_path_python_package fs q with
        | true =>
          simpa using node_from_module_path_ne_none hroot (q ++ ["__init__.py"])
        | false => simp
      | symlink t => simp
      | other => simp

theorem mapNodeFromPath_ne_none {fs : FS}
    (hroot : is_path_python_package fs [] = false) :
    ∀ ps : List Path, mapNodeFromPath fs ps ≠ none := by
  intro ps
  induction ps with
  | nil => simp [mapNodeFromPath]
  | cons p ps ih =>
    rw [mapNodeFromPath]
    cases hn : node_from_path fs p with
    | none => exact absurd hn (node_from_path_ne_none hroot p)
    | some r =>
      cases r with
      | error e => simp
      | ok n =>
        dsimp only
        cases hm : mapNodeFromPath fs ps with
        | none => exact absurd hm ih
        | some r2 => cases r2 <;> simp

theorem child_nodes_ne_none {fs : FS}
    (hroot : is_path_python_package fs [] = false) (node : NodeModel) :
    child_nodes_from_node fs node ≠ none := by
  unfold child_nodes_from_node
  cases ht : node.node_type with
  | filesystem =>
    dsimp only
    split
    · exact mapNodeFromPath_ne_none hroot _
    · simp
  | python_module =>
    dsimp only
    split
    · exact mapNodeFromPath_ne_none hroot _
    · simp
  | python_object => simp

theorem node_from_path_mem_possible {fs : FS} {p : Path} {n : NodeModel}
    (h : node_from_path fs p = some (Except.ok n)) : n ∈ possibleNodes fs := by
  cases hres : resolveChain fs (resolveFuel fs) p with
  | none => simp [node_from_path, hres] at h
  | some q =>
    cases hl : lookupEntry fs.entries q with
    | none => simp [node_from_path, hres, hl] at h
    | some e =>
      have hmem : (q, e) ∈ fs.entries := lookupEntry_mem hl
      cases e with
      | symlink t => simp [node_from_path, hres, hl] at h
      | other => simp [node_from_path, hres, hl] at h
      | file =>
        cases hm : is_path_python_module q with
        | true =>
          simp only [node_from_path, hres, hl, hm, ite_true] at h
          exact List.mem_filterMap.mpr
            ⟨(q, FSEntry.file), hmem, by simp [entryNode, hm, h]⟩
        | false =>
          simp only [node_from_path, hres, hl, hm, Bool.false_eq_true, ite_false,
            Option.some.injEq, Except.ok.injEq] at h
          exact List.mem_filterMap.mpr
            ⟨(q, FSEntry.file), hmem, by simp [entryNode, hm, h]⟩
      | dir children =>
        cases hp : is_path_python_package fs q with
        | true =>
          simp only [node_from_path, hres, hl, hp, ite_true] at h
          exact List.mem_filterMap.mpr
            ⟨(q, FSEntry.dir children), hmem, by simp [entryNode, hp, h]⟩
        | false =>
          simp only [node_from_path, hres, hl, hp, Bool.false_eq_true, ite_false,
            Option.some.injEq, Except.ok.injEq] at h
          exact List.mem_filterMap.mpr
            ⟨(q, FSEntry.dir children), hmem, by simp [entryNode, hp, h]⟩

theorem mapNodeFromPath_mem {fs : FS} :
    ∀ {ps : List Path} {ns : List NodeModel},
      mapNodeFromPath fs ps = some (Except.ok ns) →
      ∀ n ∈ ns, n ∈ possibleNodes fs := by
  intro ps
  induction ps with
  | nil =>
    intro ns h n hn
    simp only [mapNodeFromPath, Option.some.injEq, Except.ok.injEq] at h
    rw [← h] at hn
    cases hn
  | cons p ps ih =>
    intro ns h n hn
    rw [mapNodeFromPath] at h
    cases hp : node_from_path fs p with
    | none => rw [hp] at h; cases h
    | some r =>
      rw [hp] at h
      cases r with
      | error e => simp at h
      | ok m =>
        dsimp only at h
        cases hm : mapNodeFromPath fs ps with
        | none => rw [hm] at h; cases h
        | some r2 =>
          rw [hm] at h
          cases r2 with
          | error e => simp at h
          | ok ms =>
            simp only [Option.some.injEq, Except.ok.injEq] at h
            rw [← h] at hn
            rcases List.mem_cons.mp hn with rfl | hn2
            · exact node_from_path_mem_possible hp
            · exact ih hm n hn2

theorem child_nodes_mem {fs : FS} {node : NodeModel} {ns : List NodeModel}
    (h : child_nodes_from_node fs node = some (Except.ok ns)) :
    ∀ n ∈ ns, n ∈ possibleNodes fs := by
  unfold child_nodes_from_node at h
  cases ht : node.node_type with
  | filesystem =>
    rw [ht] at h
    dsimp only at h
    split at h
    · exact mapNodeFromPath_mem h
    · simp only [Option.some.injEq, Except.ok.injEq] at h
      intro n hn
      rw [← h] at hn
      cases hn
  | python_module =>
    rw [ht] at h
    dsimp only at h
    split at h
    · exact mapNodeFromPath_mem h
    · simp only [Option.some.injEq, Except.ok.injEq] at h
      intro n hn
      rw [← h] at hn
      cases hn
  | python_object =>
    rw [ht] at h
    simp only [Option.some.injEq, Except.ok.injEq] at h
    intro n hn
    rw [← h] at hn
    cases hn

theorem addChildren_cons_mem {g : Graph} {c : NodeModel} {cs : List NodeModel}
    {i : Nat} (hc : c ∈ g.nodes) :
    addChildren g i (c :: cs) = addChildren g i cs := by
  simp [addChildren, Graph.add_node, hc]

theorem addChildren_cons_not_mem {g : Graph} {c : NodeModel} {cs : List NodeModel}
    {i : Nat} (hc : c ∉ g.nodes) :
    addChildren g i (c :: cs) =
      addChildren (Graph.mk (g.nodes ++ [c])
        (updateEdges g.edges i g.nodes.length)) i cs := by
  simp [addChildren, Graph.add_node, hc, Graph.add_edge]

theorem addChildren_nodes_shape :
    ∀ (cs : List NodeModel) (g : Graph) (i : Nat),
      ∃ l, (addChildren g i cs).nodes = g.nodes ++ l ∧ ∀ n ∈ l, n ∈ cs := by
  intro cs
  induction cs with
  | nil => intro g i; exact ⟨[], by simp [addChildren], by simp⟩
  | cons c cs ih =>
    intro g i
    by_cases hc : c ∈ g.nodes
    · rw [addChildren_cons_mem hc]
      obtain ⟨l, hl, hm⟩ := ih g i
      exact ⟨l, hl, fun n hn => List.mem_cons_of_mem _ (hm n hn)⟩
    · rw [addChildren_cons_not_mem hc]
      obtain ⟨l, hl, hm⟩ :=
        ih (Graph.mk (g.nodes ++ [c]) (updateEdges g.edges i g.nodes.length)) i
      refine ⟨c :: l, ?_, ?_⟩
      · rw [hl]; simp
      · intro n hn
        rcases List.mem_cons.mp hn with rfl | hn2
        · exact List.mem_cons_self _ _
        · exact List.mem_cons_of_mem _ (hm n hn2)

theorem addChildren_nodup :
    ∀ (cs : List NodeModel) (g : Graph) (i : Nat),
      g.nodes.Nodup → (addChildren g i cs).nodes.Nodup := by
  intro cs
  induction cs with
  | nil => intro g i h; simpa [addChildren] using h
  | cons c cs ih =>
    intro g i h
    by_cases hc : c ∈ g.nodes
    · rw [addChildren_cons_mem hc]; exact ih g i h
    · rw [addChildren_cons_not_mem hc]
      apply ih
      show (g.nodes ++ [c]).Nodup
      have h2 := List.Nodup.concat hc h
      rwa [List.concat_eq_append] at h2

theorem nodes_length_le_possible {fs : FS} {g : Graph}
    (hnd : g.nodes.Nodup) (hsub : ∀ n ∈ g.nodes, n ∈ possibleNodes fs) :
    g.nodes.length ≤ (possibleNodes fs).length := by
  classical
  calc g.nodes.length = g.nodes.toFinset.card :=
        (List.toFinset_card_of_nodup hnd).symm
    _ ≤ (possibleNodes fs).toFinset.card := by
        apply Finset.card_le_card
        intro a ha
        rw [List.mem_toFinset] at ha ⊢
        exact hsub a ha
    _ ≤ (possibleNodes fs).length := List.toFinset_card_le _

theorem buildLoop_ne_none {fs : FS}
    (hroot : is_path_python_package fs [] = false) :
    ∀ (fuel : Nat) (g : Graph) (index : Nat),
      g.nodes.Nodup → (∀ n ∈ g.nodes, n ∈ possibleNodes fs) →
      (possibleNodes fs).length < index + fuel →
      buildLoop fs fuel g index ≠ none := by
  intro fuel
  induction fuel with
  | zero =>
    intro g index hnd hsub hbound
    have hle := nodes_length_le_possible hnd hsub
    have hnl : ¬ index < g.nodes.length := by omega
    rw [buildLoop]
    simp [hnl]
  | succ m ih =>
    intro g index hnd hsub hbound
    rw [buildLoop]
    by_cases hlt : index < g.nodes.length
    · rw [dif_pos hlt]
      cases hc : child_nodes_from_node fs (g.nodes.get ⟨index, hlt⟩) with
      | none => exact absurd hc (child_nodes_ne_none hroot _)
      | some r =>
        cases r with
        | error e => simp
        | ok children =>
          dsimp only
          obtain ⟨l, hl, hm⟩ := addChildren_nodes_shape children g index
          apply ih
          · exact addChildren_nodup children g index hnd
          · intro n hn
            rw [hl] at hn
            rcases List.mem_append.mp hn with h1 | h2
            · exact hsub n h1
            · exact child_nodes_mem hc n (hm n h2)
          · omega
    · rw [dif_neg hlt]; simp

theorem buildLoop_mono {fs : FS} :
    ∀ (fuel : Nat) (g : Graph) (index : Nat),
      buildLoop fs fuel g index ≠ none →
      ∀ extra, buildLoop fs (fuel + extra) g index = buildLoop fs fuel g index := by
  intro fuel
  induction fuel with
  | zero =>
    intro g index h extra
    by_cases hlt : index < g.nodes.length
    · rw [buildLoop] at h; simp [hlt] at h
    · cases extra with
      | zero => rfl
      | succ m =>
        rw [show 0 + (m + 1) = m + 1 from by omega]
        conv_lhs => rw [buildLoop]
        conv_rhs => rw [buildLoop]
        rw [dif_neg hlt, if_neg hlt]
  | succ m ih =>
    intro g index h extra
    rw [show m + 1 + extra = (m + extra) + 1 from by omega]
    by_cases hlt : index < g.nodes.length
    · rw [buildLoop, dif_pos hlt]
      conv_rhs => rw [buildLoop, dif_pos hlt]
      cases hc : child_nodes_from_node fs (g.nodes.get ⟨index, hlt⟩) with
      | none =>
        rw [buildLoop, dif_pos hlt, hc] at h
      | some r =>
        cases r with
        | error e => rfl
        | ok children =>
          dsimp only
          apply ih
          rw [buildLoop, dif_pos hlt, hc] at h
          exact h
    · rw [buildLoop, dif_neg hlt]
      conv_rhs => rw [buildLoop, dif_neg hlt]

/-- C1 (amended): over every finite filesystem whose root directory is
not itself a python package — in particular every filesystem whose
symbolic links form cycles back to already-visited locations —
graph_from_path terminates for every root path: each child path
canonicalizes to a path classified out of one of the finitely many
filesystem entries, a child equal to an existing node is deduplicated
instead of appended, so the duplicate-free node list never outgrows the
entry list, the cursor reaches len(graph.nodes) within the stipulated
fuel, and extra fuel never changes the result.  (Without the root-is-not-
a-package hypothesis the claim fails, see the counterexample: the package
climb loops forever at the filesystem root.) -/
theorem c1_terminates (fs : FS) (p : Path)
    (hroot : is_path_python_package fs [] = false) :
    graph_from_path fs p ≠ none ∧
      ∀ extra, graphFromPathFuel fs (buildFuel fs + extra) p = graph_from_path fs p := by
  have hpb : (possibleNodes fs).length < buildFuel fs := by
    have hfm := List.length_filterMap_le (fun qe => entryNode fs qe.1 qe.2) fs.entries
    simp only [possibleNodes, buildFuel]
    omega
  cases hn : node_from_path fs p with
  | none => exact absurd hn (node_from_path_ne_none hroot p)
  | some r =>
    cases r with
    | error e =>
      constructor
      · simp [graph_from_path, graphFromPathFuel, hn]
      · intro extra; simp [graph_from_path, graphFromPathFuel, hn]
    | ok n =>
      have hterm : buildLoop fs (buildFuel fs) (Graph.mk [n] []) 0 ≠ none := by
        apply buildLoop_ne_none hroot
        · simp
        · intro m hm
          have hmn : m = n := by simpa using hm
          subst hmn
          exact node_from_path_mem_possible hn
        · omega
      constructor
      · simp only [graph_from_path, graphFromPathFuel, hn]
        exact hterm
      · intro extra
        simp only [graph_from_path, graphFromPathFuel, hn]
        exact buildLoop_mono _ _ _ hterm extra

/-- C1 counterexample: over the finite two-entry filesystem whose root
directory is itself a python package (the file "/__init__.py" exists),
graph_from_path started at the root path does not terminate: the package
climb entered while classifying the root diverges for every amount of
fuel, because the parent of the filesystem root is the filesystem root
itself, so the build yields no result at its stipulated fuel either —
refuting termination for every root path over every finite
filesystem. -/
theorem c1_counterexample :
    ClimbDiverges rootPkgFS [] ∧ graph_from_path rootPkgFS [] = none := by
  constructor
  · intro fuel parts
    exact climb_nil_package (by decide) fuel parts
  · decide

theorem c1_witness :
    is_path_python_package cycFS [] = false ∧
      graph_from_path cycFS ["dir_0", "dir_0_symlink"] ≠ none :=
  ⟨by decide, (c1_terminates cycFS ["dir_0", "dir_0_symlink"] (by decide)).1⟩

theorem buildLoop_nodup {fs : FS} :
    ∀ (fuel : Nat) (g : Graph) (index : Nat) (g2 : Graph),
      g.nodes.Nodup → buildLoop fs fuel g index = some (Except.ok g2) →
      g2.nodes.Nodup := by
  intro fuel
  induction fuel with
  | zero =>
    intro g index g2 hnd h
    rw [buildLoop] at h
    split at h
    · cases h
    · simp only [Option.some.injEq, Except.ok.injEq] at h
      rw [← h]
      exact hnd
  | succ m ih =>
    intro g index g2 hnd h
    rw [buildLoop] at h
    split at h
    · rename_i hlt
      cases hc : child_nodes_from_node fs (g.nodes.get ⟨index, hlt⟩) with
      | none => rw [hc] at h; cases h
      | some r =>
        rw [hc] at h
        cases r with
        | error e => simp at h
        | ok children =>
          dsimp only at h
          exact ih _ _ _ (addChildren_nodup children g index hnd) h
    · simp only [Option.some.injEq, Except.ok.injEq] at h
      rw [← h]
      exact hnd

/-- C2: during the build a child value-equal to an existing node is
dropped by add_node (no node and no edge for that occurrence) while a
new child is appended; consequently, in every graph graph_from_path
returns, no two elements of the node list are value-equal. -/
theorem c2_nodes_dedup (fs : FS) (p : Path) (g : Graph)
    (h : graph_from_path fs p = some (Except.ok g)) : g.nodes.Nodup := by
  rw [graph_from_path, graphFromPathFuel] at h
  cases hn : node_from_path fs p with
  | none => rw [hn] at h; cases h
  | some r =>
    rw [hn] at h
    cases r with
    | error e => simp at h
    | ok n =>
      dsimp only at h
      exact buildLoop_nodup _ _ _ _ (by simp) h

theorem c2_witness :
    (Graph.mk [filesystemDirNode ["dir_0"]] []).nodes.Nodup :=
  c2_nodes_dedup cycFS ["dir_0", "dir_0_symlink"]
    (Graph.mk [filesystemDirNode ["dir_0"]] []) (by decide)

theorem updateEdges_not_mem {es : List (Nat × List Nat)} {i c : Nat}
    (h : ∀ e ∈ es, e.1 ≠ i) : updateEdges es i c = es ++ [(i, [c])] := by
  induction es with
  | nil => rfl
  | cons kv rest ih =>
    obtain ⟨k, v⟩ := kv
    have hk : k ≠ i := h (k, v) (List.mem_cons_self _ _)
    rw [updateEdges, if_neg hk, ih (fun e he => h e (List.mem_cons_of_mem _ he))]
    rfl

theorem updateEdges_last {es : List (Nat × List Nat)} {i : Nat} {v : List Nat}
    {c : Nat} (h : ∀ e ∈ es, e.1 ≠ i) :
    updateEdges (es ++ [(i, v)]) i c = es ++ [(i, v ++ [c])] := by
  induction es with
  | nil => simp [updateEdges]
  | cons kv rest ih =>
    obtain ⟨k, v2⟩ := kv
    have hk : k ≠ i := h (k, v2) (List.mem_cons_self _ _)
    rw [List.cons_append, updateEdges, if_neg hk,
      ih (fun e he => h e (List.mem_cons_of_mem _ he))]
    rfl

theorem add_edge_step {g : Graph} {i c : Nat}
    (hks : KeyShape g i) (hb : EdgeBounds g) (hic : i < c)
    (hcn : c < g.nodes.length) :
    KeyShape (g.add_edge i c) i ∧ EdgeBounds (g.add_edge i c) ∧
      edgeTargets (g.add_edge i c) = edgeTargets g ++ [c] := by
  rcases hks with hall | ⟨es, v, hes, hlt⟩
  · have hne : ∀ e ∈ g.edges, e.1 ≠ i := fun e he => Nat.ne_of_lt (hall e he)
    have heq : (g.add_edge i c).edges = g.edges ++ [(i, [c])] := by
      simp [Graph.add_edge, updateEdges_not_mem hne]
    refine ⟨Or.inr ⟨g.edges, [c], heq, hall⟩, ?_, ?_⟩
    · intro e he x hx
      have he2 : e ∈ g.edges ++ [(i, [c])] := by rw [← heq]; exact he
      rcases List.mem_append.mp he2 with h1 | h2
      · exact hb e h1 x hx
      · have he3 : e = (i, [c]) := by simpa using h2
        subst he3
        have hxc : x = c := by simpa using hx
        subst hxc
        exact ⟨hic, hcn⟩
    · rw [edgeTargets, heq]
      simp [edgeTargets]
  · have hne : ∀ e ∈ es, e.1 ≠ i := fun e he => Nat.ne_of_lt (hlt e he)
    have heq : (g.add_edge i c).edges = es ++ [(i, v ++ [c])] := by
      simp [Graph.add_edge, hes, updateEdges_last hne]
    refine ⟨Or.inr ⟨es, v ++ [c], heq, hlt⟩, ?_, ?_⟩
    · intro e he x hx
      have he2 : e ∈ es ++ [(i, v ++ [c])] := by rw [← heq]; exact he
      rcases List.mem_append.mp he2 with h1 | h2
      · exact hb e (by rw [hes]; exact List.mem_append_left _ h1) x hx
      · have he3 : e = (i, v ++ [c]) := by simpa using h2
        subst he3
        rcases List.mem_append.mp hx with hx1 | hx2
        · exact hb (i, v) (by rw [hes]; exact List.mem_append_right _ (by simp)) x hx1
        · have hxc : x = c := by simpa using hx2
          subst hxc
          exact ⟨hic, hcn⟩
    · rw [edgeTargets, heq, edgeTargets, hes]
      simp

theorem addChildren_edges_inv :
    ∀ (cs : List NodeModel) (g : Graph) (i : Nat),
      i < g.nodes.length → KeyShape g i → EdgeBounds g →
      edgeTargets g = List.range' 1 (g.nodes.length - 1) →
      i < (addChildren g i cs).nodes.length ∧
        KeyShape (addChildren g i cs) i ∧
        EdgeBounds (addChildren g i cs) ∧
        edgeTargets (addChildren g i cs) =
          List.range' 1 ((addChildren g i cs).nodes.length - 1) := by
  intro cs
  induction cs with
  | nil => intro g i h1 h2 h3 h4; exact ⟨h1, h2, h3, h4⟩
  | cons c cs ih =>
    intro g i h1 h2 h3 h4
    by_cases hc : c ∈ g.nodes
    · rw [addChildren_cons_mem hc]; exact ih g i h1 h2 h3 h4
    · rw [addChildren_cons_not_mem hc]
      have hksA : KeyShape (Graph.mk (g.nodes ++ [c]) g.edges) i := h2
      have hbA : EdgeBounds (Graph.mk (g.nodes ++ [c]) g.edges) := by
        intro e he x hx
        obtain ⟨hx1, hx2⟩ := h3 e he x hx
        refine ⟨hx1, ?_⟩
        simp only [List.length_append, List.length_singleton]
        omega
      obtain ⟨hks2, hb2, htg2⟩ :=
        add_edge_step (g := Graph.mk (g.nodes ++ [c]) g.edges)
          (i := i) (c := g.nodes.length) hksA hbA h1 (by simp)
      apply ih
      · simp only [List.length_append, List.length_singleton]
        omega
      · exact hks2
      · exact hb2
      · rw [show (Graph.mk (g.nodes ++ [c])
            (updateEdges g.edges i g.nodes.length)) =
            (Graph.mk (g.nodes ++ [c]) g.edges).add_edge i g.nodes.length from rfl]
        rw [htg2]
        show edgeTargets g ++ [g.nodes.length] = List.range' 1 _
        rw [h4]
        have hL : 0 < g.nodes.length := by omega
        have hcat := List.range'_1_concat 1 (g.nodes.length - 1)
        rw [show g.nodes.length - 1 + 1 = g.nodes.length from by omega] at hcat
        rw [show 1 + (g.nodes.length - 1) = g.nodes.length from by omega] at hcat
        rw [← hcat]
        have hlen2 : ((Graph.mk (g.nodes ++ [c]) g.edges).add_edge i
            g.nodes.length).nodes.length = g.nodes.length + 1 := by
          simp [Graph.add_edge]
        rw [hlen2]
        simp

theorem buildLoop_edges {fs : FS} :
    ∀ (fuel : Nat) (g : Graph) (index : Nat) (g2 : Graph),
      buildLoop fs fuel g index = some (Except.ok g2) →
      (∀ e ∈ g.edges, e.1 < index) → index ≤ g.nodes.length → EdgeBounds g →
      edgeTargets g = List.range' 1 (g.nodes.length - 1) →
      EdgeBounds g2 ∧ edgeTargets g2 = List.range' 1 (g2.nodes.length - 1) ∧
        (∀ e ∈ g2.edges, e.1 < g2.nodes.length) ∧
        g.nodes.length ≤ g2.nodes.length := by
  intro fuel
  induction fuel with
  | zero =>
    intro g index g2 h hkeys hle hb htg
    rw [buildLoop] at h
    split at h
    · cases h
    · simp only [Option.some.injEq, Except.ok.injEq] at h
      rw [← h]
      exact ⟨hb, htg, fun e he => lt_of_lt_of_le (hkeys e he) hle, le_refl _⟩
  | succ m ih =>
    intro g index g2 h hkeys hle hb htg
    rw [buildLoop] at h
    split at h
    · rename_i hlt
      cases hc : child_nodes_from_node fs (g.nodes.get ⟨index, hlt⟩) with
      | none => rw [hc] at h; cases h
      | some r =>
        rw [hc] at h
        cases r with
        | error e => simp at h
        | ok children =>
          dsimp only at h
          obtain ⟨h1, h2, h3, h4⟩ :=
            addChildren_edges_inv children g index hlt (Or.inl hkeys) hb htg
          have hkeys2 : ∀ e ∈ (addChildren g index children).edges,
              e.1 < index + 1 := by
            rcases h2 with hall | ⟨es, v, hes, hlt2⟩
            · exact fun e he => Nat.lt_succ_of_lt (hall e he)
            · intro e he
              rw [hes] at he
              rcases List.mem_append.mp he with hh | hh
              · exact Nat.lt_succ_of_lt (hlt2 e hh)
              · have he3 : e = (index, v) := by simpa using hh
                rw [he3]
                exact Nat.lt_succ_self _
          obtain ⟨hb2, htg2, hkeyend, hlen2⟩ := ih _ _ _ h hkeys2 h1 h3 h4
          obtain ⟨l, hl, -⟩ := addChildren_nodes_shape children g index
          refine ⟨hb2, htg2, hkeyend, ?_⟩
          calc g.nodes.length ≤ (addChildren g index children).nodes.length := by
                rw [hl]; simp
            _ ≤ g2.nodes.length := hlen2
    · simp only [Option.some.injEq, Except.ok.injEq] at h
      rw [← h]
      exact ⟨hb, htg, fun e he => lt_of_lt_of_le (hkeys e he) hle, le_refl _⟩

/-- C9: in every graph graph_from_path returns, the recorded edges form
a tree rooted at index 0: every edge goes from a strictly smaller parent
index to a strictly larger child index, every node index other than 0
appears exactly once as a child value across all edge lists, and every
index appearing in the edges (key or child) is a valid index into the
node list. -/
theorem c9_edges_tree (fs : FS) (p : Path) (g : Graph)
    (h : graph_from_path fs p = some (Except.ok g)) :
    (∀ e ∈ g.edges, e.1 < g.nodes.length ∧
      ∀ c ∈ e.2, e.1 < c ∧ c < g.nodes.length) ∧
      ∀ j, (edgeTargets g).count j =
        if 0 < j ∧ j < g.nodes.length then 1 else 0 := by
  rw [graph_from_path, graphFromPathFuel] at h
  cases hn : node_from_path fs p with
  | none => rw [hn] at h; cases h
  | some r =>
    rw [hn] at h
    cases r with
    | error e => simp at h
    | ok n =>
      dsimp only at h
      obtain ⟨hb, htg, hkeys, hlen⟩ :=
        buildLoop_edges _ _ _ _ h (by simp) (by simp)
          (by intro e he x hx; cases he) (by simp [edgeTargets])
      refine ⟨fun e he => ⟨hkeys e he, fun c hc => hb e he c hc⟩, fun j => ?_⟩
      rw [htg]
      have h1len : 1 ≤ g.nodes.length := le_trans (by simp) hlen
      by_cases hj : 0 < j ∧ j < g.nodes.length
      · rw [if_pos hj]
        apply List.count_eq_one_of_mem (List.nodup_range' _ _)
        rw [List.mem_range'_1]
        omega
      · rw [if_neg hj]
        apply List.count_eq_zero_of_not_mem
        rw [List.mem_range'_1]
        omega

theorem c9_witness :
    (∀ e ∈ c8Graph.edges, e.1 < c8Graph.nodes.length ∧
      ∀ c ∈ e.2, e.1 < c ∧ c < c8Graph.nodes.length) ∧
      ∀ j, (edgeTargets c8Graph).count j =
        if 0 < j ∧ j < c8Graph.nodes.length then 1 else 0 :=
  c9_edges_tree c8FS [] c8Graph (by decide)

/-- C8 (amended): when build is called with a root path that is itself
an empty non-package directory (the repository's test roots the build at
the empty subdirectory dir_0, not at the directory containing it), the
resulting graph is exactly one node Filesystem(dir_0) and no edges. -/
theorem c8_empty_dir (fs : FS) (d : Path)
    (hlk : lookupEntry fs.entries d = some (FSEntry.dir []))
    (hpkg : is_path_python_package fs d = false) :
    graph_from_path fs d =
      some (Except.ok (Graph.mk [filesystemDirNode d] [])) := by
  have hns : ∀ t, lookupEntry fs.entries d ≠ some (FSEntry.symlink t) := by
    intro t hcontra
    rw [hlk] at hcontra
    cases hcontra
  have hres : resolveChain fs (resolveFuel fs) d = some d := resolveChain_fixed hns _
  have hnode : node_from_path fs d = some (Except.ok (filesystemDirNode d)) := by
    unfold node_from_path
    rw [hres]
    dsimp only
    rw [hlk]
    simp [hpkg]
  have hstat : statPath fs d = some (FSEntry.dir []) := by
    rw [statPath, hres]
    exact hlk
  have hdir : is_dir fs d = true := by simp [is_dir, hstat]
  have hde : dirEntries fs d = [] := by simp [dirEntries, hstat]
  have hchild : child_nodes_from_node fs (filesystemDirNode d) =
      some (Except.ok []) := by
    simp [child_nodes_from_node, filesystemDirNode, LocationModel.file_path,
      hdir, hde, mapNodeFromPath]
  obtain ⟨m, hm⟩ : ∃ m, fs.entries.length = m + 1 := by
    have hmem := lookupEntry_mem hlk
    cases he : fs.entries with
    | nil => rw [he] at hmem; cases hmem
    | cons a l => exact ⟨l.length, rfl⟩
  rw [graph_from_path, graphFromPathFuel, hnode]
  dsimp only
  rw [buildFuel, hm]
  rw [buildLoop, dif_pos (by simp : (0 : Nat) <
    (Graph.mk [filesystemDirNode d] []).nodes.length)]
  have hchild2 : child_nodes_from_node fs
      ((Graph.mk [filesystemDirNode d] []).nodes.get ⟨0, by simp⟩) =
      some (Except.ok []) := hchild
  rw [hchild2]
  dsimp only
  rw [show addChildren (Graph.mk [filesystemDirNode d] []) 0 [] =
    Graph.mk [filesystemDirNode d] [] from rfl]
  rw [buildLoop, dif_neg (by simp)]

theorem c8_witness :
    lookupEntry c8FS.entries ["dir_0"] = some (FSEntry.dir []) ∧
      is_path_python_package c8FS ["dir_0"] = false ∧
      graph_from_path c8FS ["dir_0"] =
        some (Except.ok (Graph.mk [filesystemDirNode ["dir_0"]] [])) :=
  ⟨by decide, by decide, c8_empty_dir c8FS ["dir_0"] (by decide) (by decide)⟩

/-- C8 counterexample: build called on the root path that is a
(non-package) directory containing only one empty subdirectory dir_0
returns the two-node graph (root node first, dir_0 second, one edge
0 to 1), not the claimed single-node graph [Filesystem(dir_0)] with
empty edges; the repository's test obtains that single-node graph by
rooting the build at dir_0 itself. -/
theorem c8_counterexample :
    graph_from_path c8FS [] = some (Except.ok c8Graph) ∧
      graph_from_path c8FS [] ≠
        some (Except.ok (Graph.mk [filesystemDirNode ["dir_0"]] [])) :=
  ⟨by decide, by decide⟩

end Shinier
